import Mathlib

/-!
Verification development for the shared-state broadcast server
(src/server/server.cpp).  Byte strings are modelled as `List Nat`
(each element an octet).  The SHA-1 digest pipeline, the ordered map
of the shared state, the session line parser and the ordered-delivery
queue of the hasher are embedded as executable Lean functions, and the
behavioural claims about them are proved below the definitions.
-/

set_option maxRecDepth 10000

/-- Bytes of an ASCII string literal, used to write concrete inputs. -/
def strBytes (s : String) : List Nat :=
  s.toList.map Char.toNat

/-- Lexicographic byte-order on byte strings; this is the comparison
performed by `std::string operator<`, which `shared_state::my_cmp`
applies to the dereferenced key buffers. -/
def bytesLt : List Nat → List Nat → Bool
  | [], [] => false
  | [], _ :: _ => true
  | _ :: _, [] => false
  | a :: as, b :: bs =>
      if a < b then true
      else if b < a then false
      else bytesLt as bs

/-! ## SHA-1 (the primitive used by `hasher::hash_impl`)

`boost::uuids::detail::sha1` computes standard SHA-1; `hash_impl`
formats the five 32-bit digest words with `sprintf "%08x"` after a
literal `0x` prefix, producing 42 bytes in total. -/

/-- 32-bit left rotation (values kept below 2^32). -/
def rotl (n x : Nat) : Nat :=
  ((x <<< n) % 4294967296) ||| (x >>> (32 - n))

/-- Split the padded message into 64-byte blocks (structural recursion
on a fuel argument so that the kernel can evaluate it). -/
def chunksAux : Nat → List Nat → List (List Nat)
  | 0, _ => []
  | _ + 1, [] => []
  | n + 1, a :: rest => ((a :: rest).take 64) :: chunksAux n ((a :: rest).drop 64)

/-- Split the padded message into 64-byte blocks. -/
def chunks64 (l : List Nat) : List (List Nat) :=
  chunksAux l.length l

/-- The sixteen big-endian 32-bit words of one 64-byte block. -/
def words16 : List Nat → List Nat
  | b0 :: b1 :: b2 :: b3 :: rest =>
      (b0 * 16777216 + b1 * 65536 + b2 * 256 + b3) :: words16 rest
  | _ => []

/-- Extend the word list to 80 words, building the list in reverse:
the head of the accumulator is the most recent word. -/
def extendW : Nat → List Nat → List Nat
  | 0, acc => acc
  | n + 1, acc =>
      let w := rotl 1 ((((acc.getD 2 0) ^^^ (acc.getD 7 0)) ^^^ (acc.getD 13 0)) ^^^ (acc.getD 15 0))
      extendW n (w :: acc)

/-- The 80 message-schedule words of a block, in order. -/
def schedule (block : List Nat) : List Nat :=
  (extendW 64 (words16 block).reverse).reverse

/-- One SHA-1 round: `i` is the round index, `w` the schedule word. -/
def sha1Round (st : Nat × Nat × Nat × Nat × Nat) (iw : Nat × Nat) : Nat × Nat × Nat × Nat × Nat :=
  let (a, b, c, d, e) := st
  let (i, w) := iw
  let f :=
    if i < 20 then (b &&& c) ||| ((b ^^^ 4294967295) &&& d)
    else if i < 40 then (b ^^^ c) ^^^ d
    else if i < 60 then ((b &&& c) ||| (b &&& d)) ||| (c &&& d)
    else (b ^^^ c) ^^^ d
  let k :=
    if i < 20 then 1518500249
    else if i < 40 then 1859775393
    else if i < 60 then 2400959708
    else 3395469782
  let t := (rotl 5 a + f + e + k + w) % 4294967296
  (t, a, rotl 30 b, c, d)

/-- Process one 64-byte block, updating the five digest words. -/
def sha1Block (h : Nat × Nat × Nat × Nat × Nat) (block : List Nat) : Nat × Nat × Nat × Nat × Nat :=
  let (h0, h1, h2, h3, h4) := h
  let (a, b, c, d, e) := (schedule block).enum.foldl (fun st p => sha1Round st (p.1, p.2)) (h0, h1, h2, h3, h4)
  ((h0 + a) % 4294967296, (h1 + b) % 4294967296, (h2 + c) % 4294967296,
   (h3 + d) % 4294967296, (h4 + e) % 4294967296)

/-- Big-endian bytes of a 64-bit quantity. -/
def be64 (n : Nat) : List Nat :=
  [ (n >>> 56) % 256, (n >>> 48) % 256, (n >>> 40) % 256, (n >>> 32) % 256,
    (n >>> 24) % 256, (n >>> 16) % 256, (n >>> 8) % 256, n % 256 ]

/-- SHA-1 padding: `0x80`, zeros to 56 mod 64, then the bit length. -/
def sha1Pad (msg : List Nat) : List Nat :=
  msg ++ 128 :: List.replicate ((119 - msg.length % 64) % 64) 0 ++ be64 (8 * msg.length)

/-- The five 32-bit digest words of a byte string. -/
def sha1Words (msg : List Nat) : Nat × Nat × Nat × Nat × Nat :=
  (chunks64 (sha1Pad msg)).foldl sha1Block
    (1732584193, 4023233417, 2562383102, 271733878, 3285377520)

/-- One lowercase hex digit as an ASCII byte. -/
def hexDigit (n : Nat) : Nat :=
  if n < 10 then 48 + n else 87 + n

/-- The eight lowercase hex digits written by `sprintf "%08x"` for a
32-bit word. -/
def hex8 (w : Nat) : List Nat :=
  [28, 24, 20, 16, 12, 8, 4, 0].map (fun s => hexDigit ((w >>> s) % 16))

/-- The 42-byte hash buffer built by `hasher::hash_impl`: the bytes
`'0' 'x'` followed by the five digest words, each as `%08x`. -/
def sha1hex (msg : List Nat) : List Nat :=
  let (h0, h1, h2, h3, h4) := sha1Words msg
  48 :: 120 :: (hex8 h0 ++ hex8 h1 ++ hex8 h2 ++ hex8 h3 ++ hex8 h4)

/-! ## The shared-state store (`shared_state`)

`shared_state::m_map` is a `std::map<shared_buffer, shared_buffer, my_cmp>`
with `my_cmp` comparing the pointed-to strings lexicographically; it is
embedded as an association list kept sorted by `bytesLt` on the keys. -/

/-- A store: the entries of `m_map` in ascending key order. -/
abbrev Store := List (List Nat × List Nat)

/-- Lookup of a key, as `m_map.find` (the comparator is a total strict
order, so `find` locates the unique key equal to `k`). -/
def mapFind (k : List Nat) : Store → Option (List Nat)
  | [] => none
  | (k', h) :: rest => if k' = k then some h else mapFind k rest

/-- Insertion at the sorted position, as `m_map.emplace` does for a key
that is not yet present. -/
def mapInsert (k h : List Nat) : Store → Store
  | [] => [(k, h)]
  | (k', h') :: rest =>
      if bytesLt k k' then (k, h) :: (k', h') :: rest
      else (k', h') :: mapInsert k h rest

/-- Overwriting the mapped value at an existing key, as
`it->second = std::move(hash)`. -/
def mapReplace (k h : List Nat) : Store → Store
  | [] => []
  | (k', h') :: rest =>
      if k' = k then (k, h) :: rest else (k', h') :: mapReplace k h rest

/-- The callback triple `(updated, key, hash)` passed by
`shared_state::hash_calculated`: the two buffers are null
(`shared_buffer{}`) exactly in the no-change case. -/
abbrev UpdResult := Bool × Option (List Nat) × Option (List Nat)

/-- `shared_state::hash_calculated`: runs on the store strand once the
hasher has delivered `hash` for `key`; inserts a missing key, overwrites
on a byte-for-byte different hash, and otherwise reports no change. -/
def hash_calculated (key hash : List Nat) (m : Store) : UpdResult × Store :=
  match mapFind key m with
  | none => ((true, some key, some hash), mapInsert key hash m)
  | some stored =>
      if stored ≠ hash then ((true, some key, some hash), mapReplace key hash m)
      else ((false, none, none), m)

/-- The completed round-trip of `shared_state::update`: the value is
hashed by the hasher and the result applied by `hash_calculated`. -/
def update_apply (key val : List Nat) (m : Store) : UpdResult × Store :=
  hash_calculated key (sha1hex val) m

/-- `shared_state::get_size_impl`. -/
def get_size_impl (m : Store) : Nat := m.length

/-- `shared_state::get_first_impl`: the callback data `(empty, cursor,
entry)`, with the iterator rendered as a position in the map. -/
def get_first_impl (m : Store) : Bool × Nat × Option (List Nat × List Nat) :=
  match m with
  | [] => (true, 0, none)
  | e :: _ => (false, 0, some e)

/-- `shared_state::get_next_impl`: advances the cursor with `std::next`
and reports `at_end` when it reaches `m_map.end()`. -/
def get_next_impl (m : Store) (i : Nat) : Bool × Nat × Option (List Nat × List Nat) :=
  match m.get? (i + 1) with
  | some e => (false, i + 1, some e)
  | none => (true, i + 1, none)

/-- The ordering invariant of `std::map`: consecutive keys strictly
ascend in the comparator `my_cmp`. -/
def sortedB : Store → Bool
  | [] => true
  | [_] => true
  | a :: b :: rest => bytesLt a.1 b.1 && sortedB ((b :: rest) : Store)

/-! ## The session line parser (`session::on_readed`)

`async_read_until` hands `on_readed` the buffer together with the
number `rd` of bytes up to and including the first `'\n'`; the handler
splits `sv = buf[0, rd)` at the first `' '`.  On a line without a space
it logs and re-arms the read with the buffer untouched; on a normal
line it erases the consumed bytes and submits `(key, value)` - where
the value runs to the end of `sv`, newline included. -/

/-- Index of the first occurrence of byte `b`. -/
def find_byte (b : Nat) : List Nat → Option Nat
  | [] => none
  | x :: rest =>
      if x = b then some 0
      else match find_byte b rest with
        | some i => some (i + 1)
        | none => none

/-- Outcome of one `on_readed` invocation. -/
inductive ReadResult where
  | noline
  | badline (buf : List Nat)
  | accepted (key val rest : List Nat)
deriving DecidableEq, Repr

/-- `session::on_readed` on the success path of the read: `noline` when
the buffer holds no complete line yet, `badline` (buffer unchanged!)
when the line has no space, and otherwise the parsed key, the value
(space-to-end-of-line, newline included) and the remaining buffer. -/
def on_readed (buf : List Nat) : ReadResult :=
  match find_byte 10 buf with
  | none => .noline
  | some nl =>
      match find_byte 32 (buf.take (nl + 1)) with
      | none => .badline buf
      | some pos =>
          .accepted ((buf.take (nl + 1)).take pos)
            ((buf.take (nl + 1)).drop (pos + 1)) (buf.drop (nl + 1))

/-- The broadcast line built by `session::on_updated` when the store
reports a real change: `*key + ' ' + *hash + '\n'`. -/
def on_updated (r : UpdResult) : List (List Nat) :=
  match r with
  | (true, some key, some hash) => [key ++ 32 :: hash ++ [10]]
  | _ => []

/-- One parse-and-update step of a session: the store after the update
round-trip, the remaining read buffer, and the broadcast messages
emitted (at most one). -/
def session_step (m : Store) (buf : List Nat) : Store × List Nat × List (List Nat) :=
  match on_readed buf with
  | .noline => (m, buf, [])
  | .badline b => (m, b, [])
  | .accepted key val rest =>
      let (r, m') := update_apply key val m
      (m', rest, on_updated r)

/-- Iterated session steps: the read loop re-armed `n` times. -/
def session_iter : Nat → Store → List Nat → Store × List Nat × List (List Nat)
  | 0, m, buf => (m, buf, [])
  | n + 1, m, buf =>
      let (m', buf', ms) := session_step m buf
      let (m'', buf'', ms') := session_iter n m' buf'
      (m'', buf'', ms ++ ms')

/-- A sequence of completed updates, counting the broadcasts: each
update with `really = true` makes `on_updated` post exactly one
broadcast message. -/
def run_updates : List (List Nat × List Nat) → Store → Nat × Store
  | [], m => (0, m)
  | (k, v) :: rest, m =>
      let (r, m') := update_apply k v m
      let (n, m'') := run_updates rest m'
      ((if r.1 then 1 else 0) + n, m'')

/-- The operations servable by the store strand.  The three read
operations (`get_size_impl`, `get_first_impl`, `get_next_impl`) never
touch `m_map`. -/
inductive StoreOp where
  | update (key val : List Nat)
  | getSize
  | getFirst
  | getNext (i : Nat)
deriving DecidableEq, Repr

/-- The store contents after a sequence of operations; the read
operations return data without modifying the map. -/
def run_ops : List StoreOp → Store → Store
  | [], m => m
  | .update k v :: rest, m => run_ops rest (update_apply k v m).2
  | .getSize :: rest, m => run_ops rest m
  | .getFirst :: rest, m => run_ops rest m
  | .getNext _ :: rest, m => run_ops rest m

/-- Fuel-driven loop of repeated `get_next_impl` calls (structural
recursion so that the kernel can evaluate it). -/
def snapshot_from_fuel : Nat → Store → Nat → List (List Nat × List Nat)
  | 0, _, _ => []
  | f + 1, m, i =>
      match m.get? (i + 1) with
      | some e => e :: snapshot_from_fuel f m (i + 1)
      | none => []

/-- The entries produced by repeated `get_next_impl` calls after the
entry at position `i` has been delivered (the sync loop of
`session::on_got_message` / `on_get_first_sent`). -/
def snapshot_from (m : Store) (i : Nat) : List (List Nat × List Nat) :=
  snapshot_from_fuel m.length m i

/-- The full snapshot iteration: `get_first_impl` followed by
`get_next_impl` until `at_end`. -/
def snapshot (m : Store) : List (List Nat × List Nat) :=
  match get_first_impl m with
  | (true, _, _) => []
  | (false, i, some e) => e :: snapshot_from m i
  | (false, _, none) => []

/-! ## The hasher delivery queue (`hasher`)

`hasher::hash_impl` runs on the hasher strand and appends a slot to
`m_queue`; the SHA-1 work is posted to the pool and may finish in any
order; each completion posts `on_hashed` back to the strand, which
fills the slot of its own job and, when that slot is the queue head,
drains the longest filled prefix in order. -/

/-- One pending slot: the submission index of the job and, once the
worker has posted back, its digest. -/
abbrev HSlot := Nat × Option (List Nat)

/-- The hasher state: all inputs ever submitted (index = submission
order), the pending queue, and the callback invocations so far, in
invocation order. -/
structure HasherSt where
  subs : List (List Nat)
  queue : List HSlot
  out : List (Nat × List Nat)
deriving DecidableEq, Repr

/-- The initial hasher state. -/
def hinit : HasherSt := ⟨[], [], []⟩

/-- Fill the slot of job `j` with its digest (`it->hash = std::move(hash)`). -/
def fillQ (j : Nat) (d : List Nat) : List HSlot → List HSlot
  | [] => []
  | (i, r) :: rest =>
      if i = j then (i, some d) :: rest else (i, r) :: fillQ j d rest

/-- The drain loop of `hasher::on_hashed`: from the queue head, while
the slot has a non-null, non-empty digest, invoke the callback and
erase the slot.  Returns the invocations and the remaining queue. -/
def drainQ : List HSlot → List (Nat × List Nat) × List HSlot
  | [] => ([], [])
  | (i, some d) :: rest =>
      if d ≠ [] then ((i, d) :: (drainQ rest).1, (drainQ rest).2)
      else ([], (i, some d) :: rest)
  | (i, none) :: rest => ([], (i, none) :: rest)

/-- Events of the hasher: a submission (`hash_impl` appending a slot)
or the strand receiving the pool result for pending job `j`
(`on_hashed`); the worker hashes its own job buffer. -/
inductive HEv where
  | submit (v : List Nat)
  | complete (j : Nat)
deriving DecidableEq, Repr

/-- One hasher-strand event.  A `complete j` is only valid while job
`j` has an unfilled slot in the queue (each pool task posts back
exactly once, holding the iterator of its own slot). -/
def hstep (s : HasherSt) : HEv → Option HasherSt
  | .submit v =>
      some ⟨s.subs ++ [v], s.queue ++ [(s.subs.length, none)], s.out⟩
  | .complete j =>
      match s.subs.get? j with
      | none => none
      | some v =>
          if ((j, (none : Option (List Nat))) ∈ s.queue) then
            if ((fillQ j (sha1hex v) s.queue).head?.map Prod.fst) = some j then
              some ⟨s.subs, (drainQ (fillQ j (sha1hex v) s.queue)).2,
                    s.out ++ (drainQ (fillQ j (sha1hex v) s.queue)).1⟩
            else
              some ⟨s.subs, fillQ j (sha1hex v) s.queue, s.out⟩
          else none

/-- A run of hasher-strand events. -/
def runH : List HEv → HasherSt → Option HasherSt
  | [], s => some s
  | e :: es, s =>
      match hstep s e with
      | none => none
      | some s' => runH es s'

/-- The `i`-th submitted input (empty for an out-of-range index). -/
def getI (l : List (List Nat)) (i : Nat) : List Nat :=
  (l.get? i).getD []

/-- The inductive invariant of the hasher: the callbacks already
invoked are exactly jobs `0, 1, ...` in submission order, each with the
digest of its own input; the pending queue continues that numbering
consecutively; and every filled pending slot holds the digest of its
own input. -/
def hinv (s : HasherSt) : Prop :=
  s.out = (List.range s.out.length).map (fun i => (i, sha1hex (getI s.subs i))) ∧
  s.queue.map Prod.fst = List.range' s.out.length s.queue.length ∧
  s.subs.length = s.out.length + s.queue.length ∧
  (∀ p ∈ s.queue, p.2 = none ∨ p.2 = some (sha1hex (getI s.subs p.1)))



/-! ## Lemmas about the map primitives -/

theorem mapFind_mapInsert_self (k h : List Nat) :
    ∀ m : Store, mapFind k m = none → mapFind k (mapInsert k h m) = some h := by
  intro m
  induction m with
  | nil => intro _; simp [mapInsert, mapFind]
  | cons e rest ih =>
      intro hf
      obtain ⟨k', h'⟩ := e
      simp only [mapFind] at hf
      by_cases hk : k' = k
      · simp [hk] at hf
      · simp only [hk, if_false] at hf
        simp only [mapInsert]
        by_cases hlt : bytesLt k k'
        · simp [hlt, mapFind]
        · simp [hlt, mapFind, hk, ih hf]

theorem mapFind_mapReplace_self (k h : List Nat) :
    ∀ m : Store, mapFind k m ≠ none → mapFind k (mapReplace k h m) = some h := by
  intro m
  induction m with
  | nil => intro hf; simp [mapFind] at hf
  | cons e rest ih =>
      intro hf
      obtain ⟨k', h'⟩ := e
      simp only [mapFind] at hf
      by_cases hk : k' = k
      · simp [mapReplace, hk, mapFind]
      · simp only [hk, if_false] at hf
        simp [mapReplace, hk, mapFind, ih hf]

theorem mapFind_mapInsert_other (k h k' : List Nat) (hne : k' ≠ k) :
    ∀ m : Store, mapFind k' (mapInsert k h m) = mapFind k' m := by
  have hkk : k ≠ k' := Ne.symm hne
  intro m
  induction m with
  | nil => simp [mapInsert, mapFind, hkk]
  | cons e rest ih =>
      obtain ⟨k'', h''⟩ := e
      simp only [mapInsert]
      by_cases hlt : bytesLt k k''
      · simp [hlt, mapFind, hkk]
      · simp [hlt, mapFind, ih]

theorem mapFind_mapReplace_other (k h k' : List Nat) (hne : k' ≠ k) :
    ∀ m : Store, mapFind k' (mapReplace k h m) = mapFind k' m := by
  have hkk : k ≠ k' := Ne.symm hne
  intro m
  induction m with
  | nil => simp [mapReplace]
  | cons e rest ih =>
      obtain ⟨k'', h''⟩ := e
      simp only [mapReplace]
      by_cases hk : k'' = k
      · subst hk
        simp [mapFind, hkk]
      · simp [hk, mapFind, ih]

/-- Shared specification of a completed `update`: a change is reported
and the new hash stored exactly when the stored hash was absent or
different; otherwise the store is untouched. -/
theorem update_apply_spec (key val : List Nat) (m : Store) :
    (mapFind key m ≠ some (sha1hex val) →
      (update_apply key val m).1 = (true, some key, some (sha1hex val)) ∧
      mapFind key (update_apply key val m).2 = some (sha1hex val)) ∧
    (mapFind key m = some (sha1hex val) →
      update_apply key val m = ((false, none, none), m)) := by
  cases hf : mapFind key m with
  | none =>
      have hred : update_apply key val m =
          ((true, some key, some (sha1hex val)), mapInsert key (sha1hex val) m) := by
        unfold update_apply hash_calculated
        rw [hf]
      rw [hred]
      constructor
      · intro _
        exact ⟨rfl, mapFind_mapInsert_self key (sha1hex val) m hf⟩
      · intro hc
        simp at hc
  | some stored =>
      by_cases hs : stored = sha1hex val
      · subst hs
        have hred : update_apply key val m = ((false, none, none), m) := by
          unfold update_apply hash_calculated
          rw [hf]
          exact if_neg (by simp)
        rw [hred]
        exact ⟨fun hc => absurd rfl hc, fun _ => rfl⟩
      · have hred : update_apply key val m =
            ((true, some key, some (sha1hex val)), mapReplace key (sha1hex val) m) := by
          unfold update_apply hash_calculated
          rw [hf]
          exact if_pos hs
        rw [hred]
        refine ⟨fun _ => ⟨rfl, mapFind_mapReplace_self key (sha1hex val) m (by simp [hf])⟩,
          fun hc => absurd (Option.some.inj hc) hs⟩

/-! ## Claim C2: change detection of `update` -/

/-- C2: a completed `update(K, V)` yields `(true, K, h)` and stores `h`
exactly when `K` is absent or the stored hash differs byte-for-byte
from the new hash `h`; otherwise it yields `(false, none, none)` and
stores nothing; in particular the first update of a key reports a
change. -/
theorem C2_change_detection (key val : List Nat) (m : Store) :
    ((update_apply key val m).1.1 = true ↔
      (mapFind key m = none ∨ mapFind key m ≠ some (sha1hex val))) ∧
    ((update_apply key val m).1.1 = true →
      (update_apply key val m).1 = (true, some key, some (sha1hex val)) ∧
      mapFind key (update_apply key val m).2 = some (sha1hex val)) ∧
    ((update_apply key val m).1.1 = false →
      (update_apply key val m).1 = (false, none, none) ∧
      (update_apply key val m).2 = m) ∧
    (mapFind key m = none → (update_apply key val m).1.1 = true) := by
  have hspec := update_apply_spec key val m
  by_cases hf : mapFind key m = some (sha1hex val)
  · have hr := hspec.2 hf
    refine ⟨?_, ?_, ?_, ?_⟩
    · rw [hr]
      simp [hf]
    · rw [hr]
      intro hc
      simp at hc
    · intro _
      rw [hr]
      exact ⟨rfl, rfl⟩
    · intro hn
      rw [hn] at hf
      simp at hf
  · have hr := hspec.1 hf
    refine ⟨?_, ?_, ?_, ?_⟩
    · rw [hr.1]
      simp [hf]
    · intro _
      exact hr
    · intro hc
      rw [hr.1] at hc
      simp at hc
    · intro _
      rw [hr.1]

/-- Witness for C2 at a concrete first update. -/
theorem C2_witness :
    (update_apply (strBytes "k") (strBytes "v") []).1.1 = true :=
  (C2_change_detection (strBytes "k") (strBytes "v") []).2.2.2 (by decide)

/-! ## Claim C10: frame property of `update` -/

/-- Frame helper: `hash_calculated` leaves every other key alone, and
leaves the map alone when it reports no change. -/
theorem hash_calculated_frame (key hash : List Nat) (m : Store) :
    (∀ k', k' ≠ key → mapFind k' (hash_calculated key hash m).2 = mapFind k' m) ∧
    ((hash_calculated key hash m).1.1 = false → (hash_calculated key hash m).2 = m) := by
  cases hf : mapFind key m with
  | none =>
      have hred : hash_calculated key hash m =
          ((true, some key, some hash), mapInsert key hash m) := by
        unfold hash_calculated
        rw [hf]
      rw [hred]
      constructor
      · intro k' hne
        exact mapFind_mapInsert_other key hash k' hne m
      · intro hc
        simp at hc
  | some stored =>
      by_cases hs : stored ≠ hash
      · have hred : hash_calculated key hash m =
            ((true, some key, some hash), mapReplace key hash m) := by
          unfold hash_calculated
          rw [hf]
          exact if_pos hs
        rw [hred]
        constructor
        · intro k' hne
          exact mapFind_mapReplace_other key hash k' hne m
        · intro hc
          simp at hc
      · have hred : hash_calculated key hash m = ((false, none, none), m) := by
          unfold hash_calculated
          rw [hf]
          exact if_neg hs
        rw [hred]
        exact ⟨fun _ _ => rfl, fun _ => rfl⟩

/-- C10: `hash_calculated` modifies at most the entry of its own key -
every other key maps to the same hash (or stays absent) - and in the
no-change case the whole map is untouched. -/
theorem C10_frame (key hash : List Nat) (m : Store) :
    (∀ k', k' ≠ key → mapFind k' (hash_calculated key hash m).2 = mapFind k' m) ∧
    ((hash_calculated key hash m).1.1 = false → (hash_calculated key hash m).2 = m) :=
  hash_calculated_frame key hash m

/-- Witness for C10: updating key `a` leaves key `b` unchanged. -/
theorem C10_witness :
    mapFind (strBytes "b") ((hash_calculated (strBytes "a") (strBytes "h") []).2) =
      mapFind (strBytes "b") [] :=
  (C10_frame (strBytes "a") (strBytes "h") []).1 (strBytes "b") (by decide)

/-! ## Lemmas about the line parser -/

theorem find_byte_get (b : Nat) :
    ∀ (l : List Nat) (i : Nat), find_byte b l = some i → l.get? i = some b := by
  intro l
  induction l with
  | nil => intro i h; simp [find_byte] at h
  | cons y rest ih =>
      intro i h
      simp only [find_byte] at h
      by_cases hy : y = b
      · rw [if_pos hy] at h
        obtain rfl : (0 : Nat) = i := Option.some.inj h
        simp [hy]
      · rw [if_neg hy] at h
        cases hr : find_byte b rest with
        | none => rw [hr] at h; simp at h
        | some j =>
            rw [hr] at h
            obtain rfl : j + 1 = i := Option.some.inj h
            simpa using ih j hr

theorem find_byte_take (b : Nat) :
    ∀ (l : List Nat) (i : Nat), find_byte b l = some i → ∀ x ∈ l.take i, x ≠ b := by
  intro l
  induction l with
  | nil => intro i h; simp [find_byte] at h
  | cons y rest ih =>
      intro i h
      simp only [find_byte] at h
      by_cases hy : y = b
      · rw [if_pos hy] at h
        obtain rfl : (0 : Nat) = i := Option.some.inj h
        simp
      · rw [if_neg hy] at h
        cases hr : find_byte b rest with
        | none => rw [hr] at h; simp at h
        | some j =>
            rw [hr] at h
            obtain rfl : j + 1 = i := Option.some.inj h
            intro x hx
            rw [List.take_succ_cons] at hx
            rcases List.mem_cons.mp hx with hxy | hxr
            · exact hxy ▸ hy
            · exact ih j hr x hxr

/-- Inversion of an accepted `on_readed`: the positions of the first
newline and the first space, and the three produced buffers. -/
theorem on_readed_accepted (buf key val rest : List Nat)
    (h : on_readed buf = .accepted key val rest) :
    ∃ nl pos, find_byte 10 buf = some nl ∧
      find_byte 32 (buf.take (nl + 1)) = some pos ∧
      key = (buf.take (nl + 1)).take pos ∧
      val = (buf.take (nl + 1)).drop (pos + 1) ∧
      rest = buf.drop (nl + 1) := by
  unfold on_readed at h
  split at h
  · simp at h
  · next nl h10 =>
      split at h
      · simp at h
      · next pos h32 =>
          refine ⟨nl, pos, h10, h32, ?_, ?_, ?_⟩
          · exact (ReadResult.accepted.inj h).1.symm
          · exact (ReadResult.accepted.inj h).2.1.symm
          · exact (ReadResult.accepted.inj h).2.2.symm

/-- A completed update always leaves the freshly computed hash stored
under its key. -/
theorem update_apply_stores (key val : List Nat) (m : Store) :
    mapFind key (update_apply key val m).2 = some (sha1hex val) := by
  by_cases hf : mapFind key m = some (sha1hex val)
  · rw [(update_apply_spec key val m).2 hf]
    exact hf
  · exact ((update_apply_spec key val m).1 hf).2

/-! ## Claim C1: which bytes are hashed -/

/-- C1 counterexample: on an empty server the line `foo hello\n` does
NOT store SHA-1("hello") for key `foo` - the value passed to the
hasher runs to `sv.size()`, which includes the terminating newline, so
the stored digest is SHA-1("hello\n"). -/
theorem C1_counterexample :
    mapFind (strBytes "foo") ((session_step [] (strBytes "foo hello\n")).1) ≠
      some (strBytes "0xaaf4c61ddcc5e8a2dabede0f3b482cd9aea9434d") := by decide

/-- C1 amended: after an accepted line the stored hash for KEY is the
SHA-1 digest of the bytes strictly between the first space and the end
of the line INCLUDING the terminating newline; concretely `foo hello\n`
on an empty server stores and broadcasts
`foo 0xf572d396fae9206628714fb2ce00f72e94f2258f\n`. -/
theorem C1_hash_includes_newline :
    (∀ (m : Store) (buf key val rest : List Nat),
        on_readed buf = .accepted key val rest →
        mapFind key ((session_step m buf).1) = some (sha1hex val) ∧
        val = val.dropLast ++ [10]) ∧
    session_step [] (strBytes "foo hello\n") =
      ([(strBytes "foo", strBytes "0xf572d396fae9206628714fb2ce00f72e94f2258f")], [],
       [strBytes "foo 0xf572d396fae9206628714fb2ce00f72e94f2258f\n"]) := by
  constructor
  · intro m buf key val rest h
    obtain ⟨nl, pos, h10, h32, hk, hv, hr⟩ := on_readed_accepted buf key val rest h
    constructor
    · simp only [session_step, h, update_apply_stores]
    · have hget10 : buf.get? nl = some 10 := find_byte_get 10 buf nl h10
      have hget32 : (buf.take (nl + 1)).get? pos = some 32 := find_byte_get 32 _ pos h32
      have hnl_len : nl < buf.length := (List.get?_eq_some.mp hget10).1
      have hpos_len : pos < (buf.take (nl + 1)).length := (List.get?_eq_some.mp hget32).1
      have hpos_le : pos ≤ nl := by
        have : (buf.take (nl + 1)).length ≤ nl + 1 := by
          simp [List.length_take]
        omega
      have hpos_ne : pos ≠ nl := by
        intro hEq
        subst hEq
        rw [List.get?_take (by omega)] at hget32
        rw [hget32] at hget10
        simp at hget10
      have hpos_lt : pos < nl := by omega
      have hsv : buf.take (nl + 1) = buf.take nl ++ [10] := by
        have hget10e : buf[nl]? = some 10 := by
          rw [← List.get?_eq_getElem?]
          exact hget10
        rw [List.take_succ, hget10e]
        rfl
      have hval : val = (buf.take nl).drop (pos + 1) ++ [10] := by
        rw [hv, hsv, List.drop_append_of_le_length (by simp [List.length_take]; omega)]
      rw [hval, List.dropLast_concat]
  · decide

/-- Witness for C1: the general part applied to the concrete line. -/
theorem C1_witness :
    mapFind (strBytes "foo") ((session_step [] (strBytes "foo hello\n")).1) =
      some (sha1hex (strBytes "hello\n")) :=
  (C1_hash_includes_newline.1 [] (strBytes "foo hello\n") (strBytes "foo")
    (strBytes "hello\n") [] (by decide)).1

/-! ## Claim C7: a line with no space -/

/-- C7: the malformed line is never erased from the buffer.  With the
buffer holding `no_space_here\nok v\n`, every number of read-loop
iterations leaves the store, the buffer and the set of sent messages
untouched: the bad line is re-parsed forever and the following line
`ok v\n` is never reached, contradicting "drops the line ... continues
reading subsequent lines". -/
theorem C7_divergence :
    ∀ (n : Nat) (m : Store),
      session_iter n m (strBytes "no_space_here\nok v\n") =
        (m, strBytes "no_space_here\nok v\n", []) := by
  intro n
  induction n with
  | zero => intro m; rfl
  | succ k ih =>
      intro m
      have h1 : session_iter (k + 1) m (strBytes "no_space_here\nok v\n") =
          ((session_iter k m (strBytes "no_space_here\nok v\n")).1,
           (session_iter k m (strBytes "no_space_here\nok v\n")).2.1,
           [] ++ (session_iter k m (strBytes "no_space_here\nok v\n")).2.2) := rfl
      rw [h1, ih m]
      rfl

/-! ## Claim C8: shape of accepted keys -/

/-- C8 counterexample: the line consisting of a space, `v` and a
newline is accepted - the parsed key is the EMPTY byte string, which is
submitted and stored, refuting "length ≥ 1". -/
theorem C8_counterexample :
    on_readed (strBytes " v\n") = ReadResult.accepted [] (strBytes "v\n") [] ∧
    mapFind [] ((session_step [] (strBytes " v\n")).1) ≠ none ∧
    ¬ 1 ≤ ([] : List Nat).length := by
  refine ⟨by decide, by decide, by decide⟩

/-- C8 amended: every key submitted from an accepted line is free of
ASCII space and newline (it precedes the first space of a line whose
only newline is terminal), but it may be empty. -/
theorem C8_key_free_of_sp_lf :
    ∀ (buf key val rest : List Nat), on_readed buf = .accepted key val rest →
      (∀ x ∈ key, x ≠ 32) ∧ (∀ x ∈ key, x ≠ 10) := by
  intro buf key val rest h
  obtain ⟨nl, pos, h10, h32, hk, hv, hr⟩ := on_readed_accepted buf key val rest h
  have hget10 : buf.get? nl = some 10 := find_byte_get 10 buf nl h10
  have hget32 : (buf.take (nl + 1)).get? pos = some 32 := find_byte_get 32 _ pos h32
  have hpos_len : pos < (buf.take (nl + 1)).length := (List.get?_eq_some.mp hget32).1
  have hpos_le : pos ≤ nl := by
    have : (buf.take (nl + 1)).length ≤ nl + 1 := by simp [List.length_take]
    omega
  have hpos_ne : pos ≠ nl := by
    intro hEq
    subst hEq
    rw [List.get?_take (by omega)] at hget32
    rw [hget32] at hget10
    simp at hget10
  have hpos_lt : pos < nl := by omega
  constructor
  · intro x hx
    exact find_byte_take 32 _ pos h32 x (hk ▸ hx)
  · intro x hx
    have hkey2 : key = (buf.take nl).take pos := by
      rw [hk, List.take_take, List.take_take, Nat.min_eq_left (by omega),
        Nat.min_eq_left (by omega)]
    have hx' : x ∈ buf.take nl := List.take_subset pos (buf.take nl) (hkey2 ▸ hx)
    exact find_byte_take 10 buf nl h10 x hx'

/-- Witness for C8: the key of the accepted line `a b\n` contains
neither a space nor a newline. -/
theorem C8_witness :
    (∀ x ∈ strBytes "a", x ≠ 32) ∧ (∀ x ∈ strBytes "a", x ≠ 10) :=
  C8_key_free_of_sp_lf (strBytes "a b\n") (strBytes "a") (strBytes "b\n") [] (by decide)

/-! ## Claim C4: broadcast counting -/

/-- Unfolding of one step of `run_updates`. -/
theorem run_updates_cons (k v : List Nat) (rest : List (List Nat × List Nat)) (m : Store) :
    run_updates ((k, v) :: rest) m =
      ((if (update_apply k v m).1.1 then 1 else 0) +
        (run_updates rest (update_apply k v m).2).1,
       (run_updates rest (update_apply k v m).2).2) := rfl

/-- Once the stored hash for `key` equals the hash of `val`, repeated
identical updates broadcast nothing and leave the store unchanged. -/
theorem run_updates_stable (key val : List Nat) :
    ∀ (n : Nat) (m : Store), mapFind key m = some (sha1hex val) →
      run_updates (List.replicate n (key, val)) m = (0, m) := by
  intro n
  induction n with
  | zero => intro m _; rfl
  | succ k ih =>
      intro m hf
      have hr := (update_apply_spec key val m).2 hf
      rw [List.replicate_succ, run_updates_cons, hr]
      simp [ih m hf]

/-- C4: submitting the same `(K, V)` N ≥ 1 times against a store whose
hash for `K` is absent or different produces exactly one broadcast;
`update(K, V1)` then `update(K, V2)` with different digests produce
exactly two. -/
theorem C4_broadcast_counts :
    (∀ (n : Nat) (key val : List Nat) (m : Store),
        1 ≤ n → mapFind key m ≠ some (sha1hex val) →
        (run_updates (List.replicate n (key, val)) m).1 = 1) ∧
    (∀ (key v1 v2 : List Nat) (m : Store),
        sha1hex v1 ≠ sha1hex v2 → mapFind key m ≠ some (sha1hex v1) →
        (run_updates [(key, v1), (key, v2)] m).1 = 2) := by
  constructor
  · intro n key val m hn hf
    cases n with
    | zero => omega
    | succ k =>
        have h1 := (update_apply_spec key val m).1 hf
        have hch : (update_apply key val m).1.1 = true := by rw [h1.1]
        rw [List.replicate_succ, run_updates_cons, hch,
          run_updates_stable key val k _ h1.2]
        simp
  · intro key v1 v2 m hne hf1
    have h1 := (update_apply_spec key v1 m).1 hf1
    have hch1 : (update_apply key v1 m).1.1 = true := by rw [h1.1]
    have hf2 : mapFind key (update_apply key v1 m).2 ≠ some (sha1hex v2) := by
      rw [h1.2]
      intro hc
      exact hne (Option.some.inj hc)
    have h2 := (update_apply_spec key v2 (update_apply key v1 m).2).1 hf2
    have hch2 : (update_apply key v2 (update_apply key v1 m).2).1.1 = true := by
      rw [h2.1]
    rw [run_updates_cons, hch1, run_updates_cons, hch2]
    simp [run_updates]

/-- Witness for C4: a single fresh update broadcasts exactly once. -/
theorem C4_witness :
    (run_updates (List.replicate 1 (strBytes "k", strBytes "v")) []).1 = 1 :=
  C4_broadcast_counts.1 1 (strBytes "k") (strBytes "v") [] (by decide) (by decide)

/-! ## The comparator `my_cmp` is a strict total order -/

theorem bytesLt_irrefl : ∀ l : List Nat, bytesLt l l = false := by
  intro l
  induction l with
  | nil => rfl
  | cons x rest ih => simp [bytesLt, ih]

theorem bytesLt_trans :
    ∀ (a b c : List Nat), bytesLt a b = true → bytesLt b c = true → bytesLt a c = true := by
  intro a
  induction a with
  | nil =>
      intro b c hab hbc
      cases b with
      | nil => simp [bytesLt] at hab
      | cons y bs =>
          cases c with
          | nil => simp [bytesLt] at hbc
          | cons z cs => simp [bytesLt]
  | cons x as ih =>
      intro b c hab hbc
      cases b with
      | nil => simp [bytesLt] at hab
      | cons y bs =>
          cases c with
          | nil => simp [bytesLt] at hbc
          | cons z cs =>
              simp only [bytesLt] at hab hbc ⊢
              by_cases hxy : x < y
              · by_cases hyz : y < z
                · simp [Nat.lt_trans hxy hyz]
                · by_cases hzy : z < y
                  · simp [hyz, hzy] at hbc
                  · have : y = z := by omega
                    subst this
                    simp [hxy]
              · by_cases hyx : y < x
                · simp [hxy, hyx] at hab
                · have : x = y := by omega
                  subst this
                  simp only [Nat.lt_irrefl, if_false] at hab
                  by_cases hxz : x < z
                  · simp [hxz]
                  · by_cases hzx : z < x
                    · simp [hxz, hzx] at hbc
                    · have : x = z := by omega
                      subst this
                      simp only [Nat.lt_irrefl, if_false] at hbc ⊢
                      exact ih bs cs hab hbc

theorem bytesLt_total :
    ∀ (a b : List Nat), a ≠ b → bytesLt a b = true ∨ bytesLt b a = true := by
  intro a
  induction a with
  | nil =>
      intro b hne
      cases b with
      | nil => exact absurd rfl hne
      | cons y bs => left; simp [bytesLt]
  | cons x as ih =>
      intro b hne
      cases b with
      | nil => right; simp [bytesLt]
      | cons y bs =>
          by_cases hxy : x < y
          · left; simp [bytesLt, hxy]
          · by_cases hyx : y < x
            · right; simp [bytesLt, hyx]
            · have hxy' : x = y := by omega
              subst hxy'
              have hne' : as ≠ bs := fun h => hne (by rw [h])
              rcases ih bs hne' with h | h
              · left; simp [bytesLt, h]
              · right; simp [bytesLt, h]

/-! ## Sortedness of the map -/

theorem sortedB_tail :
    ∀ (a : List Nat × List Nat) (m : Store), sortedB (a :: m) = true → sortedB m = true := by
  intro a m h
  cases m with
  | nil => rfl
  | cons b rest =>
      simp only [sortedB, Bool.and_eq_true] at h
      exact h.2

theorem sortedB_head_lt :
    ∀ (m : Store) (a : List Nat × List Nat), sortedB (a :: m) = true →
      ∀ p ∈ m, bytesLt a.1 p.1 = true := by
  intro m
  induction m with
  | nil =>
      intro a _ p hp
      simp at hp
  | cons b rest ih =>
      intro a h p hp
      simp only [sortedB, Bool.and_eq_true] at h
      rcases List.mem_cons.mp hp with rfl | hp'
      · exact h.1
      · exact bytesLt_trans a.1 b.1 p.1 h.1 (ih b h.2 p hp')

theorem sortedB_cons_of :
    ∀ (a : List Nat × List Nat) (m : Store), sortedB m = true →
      (∀ p ∈ m, bytesLt a.1 p.1 = true) → sortedB (a :: m) = true := by
  intro a m hm hall
  cases m with
  | nil => rfl
  | cons b rest =>
      simp only [sortedB, Bool.and_eq_true]
      exact ⟨hall b (by simp), hm⟩

theorem sortedB_keys_nodup : ∀ m : Store, sortedB m = true → (m.map Prod.fst).Nodup := by
  intro m
  induction m with
  | nil => intro _; simp
  | cons a rest ih =>
      intro hs
      simp only [List.map_cons, List.nodup_cons]
      constructor
      · intro hmem
        obtain ⟨p, hp, hpk⟩ := List.mem_map.mp hmem
        have hlt := sortedB_head_lt rest a hs p hp
        rw [hpk, bytesLt_irrefl] at hlt
        simp at hlt
      · exact ih (sortedB_tail a rest hs)

theorem mem_mapInsert :
    ∀ (m : Store) (k h p), p ∈ mapInsert k h m → p = (k, h) ∨ p ∈ m := by
  intro m k h
  induction m with
  | nil =>
      intro p hp
      simp [mapInsert] at hp
      left; exact hp
  | cons e rest ih =>
      obtain ⟨k', h'⟩ := e
      intro p hp
      simp only [mapInsert] at hp
      by_cases hlt : bytesLt k k'
      · rw [if_pos hlt] at hp
        rcases List.mem_cons.mp hp with rfl | hp'
        · left; rfl
        · right; exact hp'
      · rw [if_neg hlt] at hp
        rcases List.mem_cons.mp hp with rfl | hp'
        · right; simp
        · rcases ih p hp' with h1 | h1
          · left; exact h1
          · right; exact List.mem_cons_of_mem _ h1

theorem mapFind_mem : ∀ (m : Store) (k h), mapFind k m = some h → (k, h) ∈ m := by
  intro m k h
  induction m with
  | nil => intro hf; simp [mapFind] at hf
  | cons e rest ih =>
      obtain ⟨k', h'⟩ := e
      intro hf
      simp only [mapFind] at hf
      by_cases hk : k' = k
      · rw [if_pos hk] at hf
        subst hk
        obtain rfl : h' = h := Option.some.inj hf
        simp
      · rw [if_neg hk] at hf
        exact List.mem_cons_of_mem _ (ih hf)

theorem mem_mapReplace :
    ∀ (m : Store) (k h p), p ∈ mapReplace k h m →
      p ∈ m ∨ (p = (k, h) ∧ mapFind k m ≠ none) := by
  intro m k h
  induction m with
  | nil =>
      intro p hp
      simp [mapReplace] at hp
  | cons e rest ih =>
      obtain ⟨k', h'⟩ := e
      intro p hp
      simp only [mapReplace] at hp
      by_cases hk : k' = k
      · rw [if_pos hk] at hp
        rcases List.mem_cons.mp hp with rfl | hp'
        · right
          exact ⟨rfl, by simp [mapFind, hk]⟩
        · left; exact List.mem_cons_of_mem _ hp'
      · rw [if_neg hk] at hp
        rcases List.mem_cons.mp hp with rfl | hp'
        · left; simp
        · rcases ih p hp' with h1 | ⟨rfl, h2⟩
          · left; exact List.mem_cons_of_mem _ h1
          · right
            refine ⟨rfl, ?_⟩
            simpa [mapFind, hk] using h2

theorem sortedB_mapInsert :
    ∀ (m : Store) (k h : List Nat), mapFind k m = none → sortedB m = true →
      sortedB (mapInsert k h m) = true := by
  intro m
  induction m with
  | nil => intro k h _ _; rfl
  | cons e rest ih =>
      obtain ⟨k', h'⟩ := e
      intro k h hf hs
      simp only [mapFind] at hf
      by_cases hk : k' = k
      · rw [if_pos hk] at hf
        simp at hf
      · rw [if_neg hk] at hf
        simp only [mapInsert]
        by_cases hlt : bytesLt k k'
        · rw [if_pos hlt]
          refine sortedB_cons_of (k, h) ((k', h') :: rest) hs ?_
          intro p hp
          rcases List.mem_cons.mp hp with rfl | hp'
          · exact hlt
          · exact bytesLt_trans k k' p.1 hlt (sortedB_head_lt rest (k', h') hs p hp')
        · rw [if_neg hlt]
          have hk'k : bytesLt k' k = true := by
            rcases bytesLt_total k k' (fun hEq => hk hEq.symm) with hx | hx
            · rw [hx] at hlt
              simp at hlt
            · exact hx
          refine sortedB_cons_of (k', h') (mapInsert k h rest)
            (ih k h hf (sortedB_tail _ _ hs)) ?_
          intro p hp
          rcases mem_mapInsert rest k h p hp with rfl | hp'
          · exact hk'k
          · exact sortedB_head_lt rest (k', h') hs p hp'

theorem sortedB_mapReplace :
    ∀ (m : Store) (k h : List Nat), sortedB m = true →
      sortedB (mapReplace k h m) = true := by
  intro m
  induction m with
  | nil => intro k h _; rfl
  | cons e rest ih =>
      obtain ⟨k', h'⟩ := e
      intro k h hs
      simp only [mapReplace]
      by_cases hk : k' = k
      · rw [if_pos hk]
        refine sortedB_cons_of (k, h) rest (sortedB_tail _ _ hs) ?_
        intro p hp
        have := sortedB_head_lt rest (k', h') hs p hp
        rw [hk] at this
        exact this
      · rw [if_neg hk]
        refine sortedB_cons_of (k', h') (mapReplace k h rest)
          (ih k h (sortedB_tail _ _ hs)) ?_
        intro p hp
        rcases mem_mapReplace rest k h p hp with hin | ⟨rfl, hfind⟩
        · exact sortedB_head_lt rest (k', h') hs p hin
        · cases hf0 : mapFind k rest with
          | none => exact absurd hf0 hfind
          | some h₀ =>
              exact sortedB_head_lt rest (k', h') hs (k, h₀) (mapFind_mem rest k h₀ hf0)

/-- Completed updates preserve the `std::map` ordering invariant. -/
theorem sortedB_update_apply (key val : List Nat) (m : Store) (hs : sortedB m = true) :
    sortedB (update_apply key val m).2 = true := by
  cases hf : mapFind key m with
  | none =>
      have hred : update_apply key val m =
          ((true, some key, some (sha1hex val)), mapInsert key (sha1hex val) m) := by
        unfold update_apply hash_calculated
        rw [hf]
      rw [hred]
      exact sortedB_mapInsert m key (sha1hex val) hf hs
  | some stored =>
      by_cases hst : stored = sha1hex val
      · have hred : update_apply key val m = ((false, none, none), m) := by
          unfold update_apply hash_calculated
          rw [hf]
          exact if_neg (by simp [hst])
        rw [hred]
        exact hs
      · have hred : update_apply key val m =
            ((true, some key, some (sha1hex val)), mapReplace key (sha1hex val) m) := by
          unfold update_apply hash_calculated
          rw [hf]
          exact if_pos hst
        rw [hred]
        exact sortedB_mapReplace m key (sha1hex val) hs

/-- Completed updates never remove a key. -/
theorem mapFind_mono_update (key val : List Nat) (m : Store) :
    ∀ k, mapFind k m ≠ none → mapFind k (update_apply key val m).2 ≠ none := by
  intro k hk
  by_cases hkk : k = key
  · subst hkk
    rw [update_apply_stores k val m]
    simp
  · rw [show mapFind k (update_apply key val m).2 = mapFind k m from
      (hash_calculated_frame key (sha1hex val) m).1 k hkk]
    exact hk

/-! ## Claim C6: the store only grows -/

/-- C6: across every sequence of store operations from a well-ordered
state, the map stays ordered, has at most one entry per key, and every
key that once has an entry keeps one: no operation removes entries. -/
theorem C6_store_only_grows :
    ∀ (ops : List StoreOp) (m : Store), sortedB m = true →
      sortedB (run_ops ops m) = true ∧
      ((run_ops ops m).map Prod.fst).Nodup ∧
      (∀ k, mapFind k m ≠ none → mapFind k (run_ops ops m) ≠ none) := by
  intro ops
  induction ops with
  | nil =>
      intro m hs
      exact ⟨hs, sortedB_keys_nodup m hs, fun _ hk => hk⟩
  | cons op rest ih =>
      intro m hs
      cases op with
      | update key val =>
          obtain ⟨h1, h2, h3⟩ := ih (update_apply key val m).2
            (sortedB_update_apply key val m hs)
          exact ⟨h1, h2, fun k hk => h3 k (mapFind_mono_update key val m k hk)⟩
      | getSize => exact ih m hs
      | getFirst => exact ih m hs
      | getNext i => exact ih m hs

/-- Witness for C6: a short operation sequence from the empty store. -/
theorem C6_witness :
    sortedB (run_ops
      [StoreOp.update (strBytes "b") (strBytes "x"), StoreOp.getSize,
       StoreOp.update (strBytes "a") (strBytes "y"), StoreOp.getFirst] []) = true :=
  (C6_store_only_grows
    [StoreOp.update (strBytes "b") (strBytes "x"), StoreOp.getSize,
     StoreOp.update (strBytes "a") (strBytes "y"), StoreOp.getFirst] [] (by decide)).1

/-! ## Claim C5: snapshot iteration -/

theorem snapshot_from_fuel_eq :
    ∀ (f : Nat) (m : Store) (i : Nat), m.length ≤ i + 1 + f →
      snapshot_from_fuel f m i = m.drop (i + 1) := by
  intro f
  induction f with
  | zero =>
      intro m i hle
      rw [List.drop_eq_nil_of_le (by omega)]
      rfl
  | succ g ih =>
      intro m i hle
      simp only [snapshot_from_fuel]
      cases hg : m.get? (i + 1) with
      | some e =>
          obtain ⟨hlt, heq⟩ := List.get?_eq_some.mp hg
          rw [ih m (i + 1) (by omega),
            show m.drop (i + 1) = m.get ⟨i + 1, hlt⟩ :: m.drop (i + 1 + 1) from
              List.drop_eq_get_cons hlt,
            heq]
      | none =>
          have hge : m.length ≤ i + 1 := List.get?_eq_none.mp hg
          rw [List.drop_eq_nil_of_le (by omega)]

/-- The snapshot loop visits exactly the entries of the map, in map
order. -/
theorem snapshot_eq : ∀ m : Store, snapshot m = m := by
  intro m
  cases m with
  | nil => rfl
  | cons e rest =>
      show e :: snapshot_from (e :: rest) 0 = e :: rest
      have h1 : snapshot_from (e :: rest) 0 = (e :: rest).drop 1 :=
        snapshot_from_fuel_eq (e :: rest).length (e :: rest) 0 (by omega)
      rw [h1]
      rfl

/-- C5: `get_first_impl` reports empty exactly on the empty store and
otherwise yields the least key in lexicographic byte order;
`get_next_impl` reports `at_end` exactly after the last entry; and on
an unchanging well-ordered store the iteration enumerates every entry
exactly once, in ascending key order. -/
theorem C5_snapshot_iteration :
    ∀ m : Store,
      ((get_first_impl m).1 = true ↔ m = []) ∧
      (∀ i, (get_next_impl m i).1 = true ↔ m.length ≤ i + 1) ∧
      (sortedB m = true →
        snapshot m = m ∧
        ((m.map Prod.fst).Nodup) ∧
        (∀ e, (get_first_impl m).2.2 = some e →
          e ∈ m ∧ ∀ p ∈ m, p ≠ e → bytesLt e.1 p.1 = true)) := by
  intro m
  refine ⟨?_, ?_, ?_⟩
  · cases m with
    | nil => simp [get_first_impl]
    | cons e rest => simp [get_first_impl]
  · intro i
    unfold get_next_impl
    split
    · next e heq =>
        have hlt : i + 1 < m.length := (List.get?_eq_some.mp heq).1
        simp
        omega
    · next heq =>
        have hge : m.length ≤ i + 1 := List.get?_eq_none.mp heq
        simp [hge]
  · intro hs
    refine ⟨snapshot_eq m, sortedB_keys_nodup m hs, ?_⟩
    intro e he
    cases m with
    | nil => simp [get_first_impl] at he
    | cons a rest =>
        simp only [get_first_impl] at he
        obtain rfl : a = e := Option.some.inj he
        refine ⟨by simp, ?_⟩
        intro p hp hne
        rcases List.mem_cons.mp hp with rfl | hp'
        · exact absurd rfl hne
        · exact sortedB_head_lt rest a hs p hp'

/-- Witness for C5: the snapshot of a concrete two-entry store. -/
theorem C5_witness :
    snapshot [(strBytes "a", [1]), (strBytes "b", [2])] =
      [(strBytes "a", [1]), (strBytes "b", [2])] :=
  ((C5_snapshot_iteration [(strBytes "a", [1]), (strBytes "b", [2])]).2.2 (by decide)).1

/-! ## Claim C3: in-order delivery of the hasher -/

theorem fillQ_map_fst (j : Nat) (d : List Nat) :
    ∀ q : List HSlot, (fillQ j d q).map Prod.fst = q.map Prod.fst := by
  intro q
  induction q with
  | nil => rfl
  | cons p rest ih =>
      obtain ⟨i, r⟩ := p
      simp only [fillQ]
      by_cases hij : i = j
      · rw [if_pos hij]
        simp
      · rw [if_neg hij]
        simp [ih]

theorem fillQ_length (j : Nat) (d : List Nat) (q : List HSlot) :
    (fillQ j d q).length = q.length := by
  have := congrArg List.length (fillQ_map_fst j d q)
  simpa using this

theorem mem_fillQ (j : Nat) (d : List Nat) :
    ∀ (q : List HSlot) (p : HSlot), p ∈ fillQ j d q → p ∈ q ∨ (p.1 = j ∧ p.2 = some d) := by
  intro q
  induction q with
  | nil =>
      intro p hp
      simp [fillQ] at hp
  | cons e rest ih =>
      obtain ⟨i, r⟩ := e
      intro p hp
      simp only [fillQ] at hp
      by_cases hij : i = j
      · rw [if_pos hij] at hp
        rcases List.mem_cons.mp hp with rfl | hp'
        · right
          exact ⟨hij, rfl⟩
        · left
          exact List.mem_cons_of_mem _ hp'
      · rw [if_neg hij] at hp
        rcases List.mem_cons.mp hp with rfl | hp'
        · left; simp
        · rcases ih p hp' with h1 | h1
          · left
            exact List.mem_cons_of_mem _ h1
          · right
            exact h1

theorem drainQ_cons_some (i : Nat) (d : List Nat) (rest : List HSlot) (hd : d ≠ []) :
    drainQ ((i, some d) :: rest) = ((i, d) :: (drainQ rest).1, (drainQ rest).2) := by
  simp only [drainQ]
  rw [if_pos hd]

/-- The drain loop removes a prefix of filled slots and reports exactly
their contents, in queue order. -/
theorem drainQ_decomp :
    ∀ q : List HSlot,
      q = ((drainQ q).1.map (fun p => (p.1, some p.2))) ++ (drainQ q).2 := by
  intro q
  induction q with
  | nil => rfl
  | cons e rest ih =>
      obtain ⟨i, r⟩ := e
      cases r with
      | none => rfl
      | some d =>
          by_cases hd : d ≠ []
          · rw [drainQ_cons_some i d rest hd]
            simpa using ih
          · have hdnil : d = [] := by
              by_cases h0 : d = []
              · exact h0
              · exact absurd h0 hd
            subst hdnil
            rfl

theorem range'_split (s m n : Nat) (h : m ≤ n) :
    List.range' s n = List.range' s m ++ List.range' (s + m) (n - m) := by
  have h3 := List.range'_append s m (n - m) 1
  simp only [Nat.one_mul] at h3
  rw [h3]
  congr 1
  omega

theorem range_map_append {α : Type} (g : Nat → α) (k p : Nat) :
    (List.range (k + p)).map g = (List.range k).map g ++ (List.range' k p).map g := by
  rw [← List.map_append]
  congr 1
  rw [List.range_eq_range', List.range_eq_range']
  have := range'_split 0 k (k + p) (by omega)
  simpa using this

/-- A list whose first components are consecutive indices and whose
second components are determined by the first is a mapped range. -/
theorem list_eq_range'_map (dg : Nat → List Nat) :
    ∀ (o : List (Nat × List Nat)) (s : Nat), o.map Prod.fst = List.range' s o.length →
      (∀ p ∈ o, p.2 = dg p.1) → o = (List.range' s o.length).map (fun i => (i, dg i)) := by
  intro o
  induction o with
  | nil => intro s _ _; rfl
  | cons p rest ih =>
      intro s hfst hall
      simp only [List.map_cons, List.length_cons, List.range'_succ] at hfst ⊢
      obtain ⟨h1, h2⟩ := List.cons.inj hfst
      congr 1
      · obtain ⟨pi, pd⟩ := p
        have hp2 : pd = dg pi := hall (pi, pd) (by simp)
        simp only at h1
        rw [h1] at hp2 ⊢
        rw [hp2]
      · exact ih (s + 1) h2 (fun q hq => hall q (List.mem_cons_of_mem _ hq))

theorem getI_append (l : List (List Nat)) (v : List Nat) (i : Nat) (h : i < l.length) :
    getI (l ++ [v]) i = getI l i := by
  unfold getI
  rw [List.get?_append h]

theorem hinv_init : hinv hinit := by
  refine ⟨rfl, rfl, rfl, ?_⟩
  intro p hp
  simp [hinit] at hp

theorem hinv_submit (s : HasherSt) (v : List Nat) (h : hinv s) :
    hinv ⟨s.subs ++ [v], s.queue ++ [(s.subs.length, none)], s.out⟩ := by
  obtain ⟨h1, h2, h3, h4⟩ := h
  refine ⟨?_, ?_, ?_, ?_⟩
  · show s.out = (List.range s.out.length).map (fun i => (i, sha1hex (getI (s.subs ++ [v]) i)))
    have hmap : (List.range s.out.length).map (fun i => (i, sha1hex (getI (s.subs ++ [v]) i))) =
        (List.range s.out.length).map (fun i => (i, sha1hex (getI s.subs i))) := by
      apply List.map_congr_left
      intro i hi
      have hik : i < s.out.length := List.mem_range.mp hi
      rw [getI_append s.subs v i (by omega)]
    rw [hmap]
    exact h1
  · show (s.queue ++ [(s.subs.length, none)]).map Prod.fst =
      List.range' s.out.length (s.queue ++ [(s.subs.length, none)]).length
    have hlen : (s.queue ++ [(s.subs.length, none)]).length = s.queue.length + 1 := by simp
    rw [hlen, List.map_append, h2,
      range'_split s.out.length s.queue.length (s.queue.length + 1) (by omega)]
    congr 1
    have h1sub : s.queue.length + 1 - s.queue.length = 1 := by omega
    rw [h1sub]
    simp [List.range', h3]
  · show (s.subs ++ [v]).length = s.out.length + (s.queue ++ [(s.subs.length, none)]).length
    simp only [List.length_append, List.length_cons, List.length_nil]
    omega
  · intro p hp
    show p.2 = none ∨ p.2 = some (sha1hex (getI (s.subs ++ [v]) p.1))
    rcases List.mem_append.mp hp with hin | hnew
    · rcases h4 p hin with hn | hs
      · exact Or.inl hn
      · right
        have hplt : p.1 < s.subs.length := by
          have hmem : p.1 ∈ s.queue.map Prod.fst := List.mem_map_of_mem Prod.fst hin
          rw [h2] at hmem
          have := List.mem_range'_1.mp hmem
          omega
        rw [getI_append s.subs v p.1 hplt]
        exact hs
    · left
      have : p = (s.subs.length, none) := by simpa using hnew
      rw [this]

/-- Slots filled by `on_hashed` hold the digest of their own input. -/
theorem fillQ_inv (s : HasherSt) (j : Nat) (v : List Nat) (h : hinv s)
    (hsub : s.subs.get? j = some v) :
    ∀ p ∈ fillQ j (sha1hex v) s.queue,
      p.2 = none ∨ p.2 = some (sha1hex (getI s.subs p.1)) := by
  obtain ⟨h1, h2, h3, h4⟩ := h
  have hgv : getI s.subs j = v := by
    unfold getI
    rw [hsub]
    rfl
  intro p hp
  rcases mem_fillQ j (sha1hex v) s.queue p hp with hin | ⟨hp1, hp2⟩
  · exact h4 p hin
  · right
    rw [hp2, hp1, hgv]

theorem hinv_fill (s : HasherSt) (j : Nat) (v : List Nat) (h : hinv s)
    (hsub : s.subs.get? j = some v) :
    hinv ⟨s.subs, fillQ j (sha1hex v) s.queue, s.out⟩ := by
  have h4q1 := fillQ_inv s j v h hsub
  obtain ⟨h1, h2, h3, h4⟩ := h
  refine ⟨h1, ?_, ?_, ?_⟩
  · show (fillQ j (sha1hex v) s.queue).map Prod.fst =
      List.range' s.out.length (fillQ j (sha1hex v) s.queue).length
    rw [fillQ_map_fst, fillQ_length]
    exact h2
  · show s.subs.length = s.out.length + (fillQ j (sha1hex v) s.queue).length
    rw [fillQ_length]
    exact h3
  · exact h4q1

theorem hinv_drain (s : HasherSt) (j : Nat) (v : List Nat) (h : hinv s)
    (hsub : s.subs.get? j = some v) :
    hinv ⟨s.subs, (drainQ (fillQ j (sha1hex v) s.queue)).2,
          s.out ++ (drainQ (fillQ j (sha1hex v) s.queue)).1⟩ := by
  have h4q1 := fillQ_inv s j v h hsub
  obtain ⟨h1, h2, h3, h4⟩ := h
  obtain ⟨o, q2, hoq⟩ : ∃ o q2, drainQ (fillQ j (sha1hex v) s.queue) = (o, q2) :=
    ⟨(drainQ (fillQ j (sha1hex v) s.queue)).1, (drainQ (fillQ j (sha1hex v) s.queue)).2, rfl⟩
  rw [hoq]
  have hdec : fillQ j (sha1hex v) s.queue =
      (o.map (fun p => (p.1, some p.2))) ++ q2 := by
    have := drainQ_decomp (fillQ j (sha1hex v) s.queue)
    rw [hoq] at this
    exact this
  have hq1fst : (fillQ j (sha1hex v) s.queue).map Prod.fst =
      List.range' s.out.length s.queue.length := by
    rw [fillQ_map_fst]
    exact h2
  have hq1len : (fillQ j (sha1hex v) s.queue).length = s.queue.length :=
    fillQ_length j (sha1hex v) s.queue
  have holen : o.length + q2.length = s.queue.length := by
    have hc := congrArg List.length hdec
    simp only [List.length_append, List.length_map] at hc
    omega
  have hcomp : (Prod.fst ∘ fun p : Nat × List Nat => (p.1, some p.2)) = Prod.fst := by
    funext p
    rfl
  have hofst : o.map Prod.fst ++ q2.map Prod.fst = List.range' s.out.length s.queue.length := by
    calc o.map Prod.fst ++ q2.map Prod.fst
        = (o.map (fun p => (p.1, some p.2))).map Prod.fst ++ q2.map Prod.fst := by
          rw [List.map_map, hcomp]
      _ = ((o.map (fun p => (p.1, some p.2))) ++ q2).map Prod.fst := by
          rw [List.map_append]
      _ = (fillQ j (sha1hex v) s.queue).map Prod.fst := by rw [← hdec]
      _ = List.range' s.out.length s.queue.length := hq1fst
  have hosplit : List.range' s.out.length s.queue.length =
      List.range' s.out.length o.length ++
        List.range' (s.out.length + o.length) (s.queue.length - o.length) :=
    range'_split s.out.length o.length s.queue.length (by omega)
  have hinj := List.append_inj (hofst.trans hosplit) (by simp)
  have ho2 : ∀ p ∈ o, p.2 = sha1hex (getI s.subs p.1) := by
    intro p hp
    have hlift : (p.1, some p.2) ∈ fillQ j (sha1hex v) s.queue := by
      rw [hdec]
      exact List.mem_append_left _ (List.mem_map_of_mem _ hp)
    rcases h4q1 _ hlift with hnone | hsome
    · exact absurd hnone (by simp)
    · exact Option.some.inj hsome
  have horange : o = (List.range' s.out.length o.length).map
      (fun i => (i, sha1hex (getI s.subs i))) :=
    list_eq_range'_map (fun i => sha1hex (getI s.subs i)) o s.out.length hinj.1 ho2
  refine ⟨?_, ?_, ?_, ?_⟩
  · show s.out ++ o = (List.range (s.out ++ o).length).map
      (fun i => (i, sha1hex (getI s.subs i)))
    rw [List.length_append, range_map_append, ← h1, ← horange]
  · show q2.map Prod.fst = List.range' (s.out ++ o).length q2.length
    rw [List.length_append]
    have hq2len : s.queue.length - o.length = q2.length := by omega
    rw [hinj.2, hq2len]
  · show s.subs.length = (s.out ++ o).length + q2.length
    simp only [List.length_append]
    omega
  · intro p hp
    apply h4q1
    rw [hdec]
    exact List.mem_append_right _ hp

/-- Every valid hasher-strand event preserves the invariant. -/
theorem hinv_step (s s' : HasherSt) (e : HEv) (h : hinv s) (hse : hstep s e = some s') :
    hinv s' := by
  cases e with
  | submit v =>
      simp only [hstep] at hse
      obtain rfl := Option.some.inj hse
      exact hinv_submit s v h
  | complete j =>
      cases hsub : s.subs.get? j with
      | none =>
          simp only [hstep, hsub] at hse
          exact Option.noConfusion hse
      | some v =>
          simp only [hstep, hsub] at hse
          by_cases hmem : ((j, (none : Option (List Nat))) ∈ s.queue)
          · rw [if_pos hmem] at hse
            by_cases hhead : ((fillQ j (sha1hex v) s.queue).head?.map Prod.fst) = some j
            · rw [if_pos hhead] at hse
              obtain rfl := Option.some.inj hse
              exact hinv_drain s j v h hsub
            · rw [if_neg hhead] at hse
              obtain rfl := Option.some.inj hse
              exact hinv_fill s j v h hsub
          · rw [if_neg hmem] at hse
            exact Option.noConfusion hse

theorem hinv_runH :
    ∀ (evs : List HEv) (s s' : HasherSt), hinv s → runH evs s = some s' → hinv s' := by
  intro evs
  induction evs with
  | nil =>
      intro s s' h hr
      obtain rfl := Option.some.inj hr
      exact h
  | cons e rest ih =>
      intro s s' h hr
      unfold runH at hr
      split at hr
      · exact Option.noConfusion hr
      · next s1 hst => exact ih s1 s' (hinv_step s s1 e h hst) hr

/-- C3: for every valid sequence of submissions and pool completions,
the callbacks that have been invoked are exactly the jobs
`0, 1, 2, ...` in submission order - a later-submitted job is never
delivered before an earlier one, whatever order the pool finishes in -
and each callback receives the digest of its own job input. -/
theorem C3_in_order_delivery (evs : List HEv) (s' : HasherSt)
    (h : runH evs hinit = some s') :
    s'.out = (List.range s'.out.length).map (fun i => (i, sha1hex (getI s'.subs i))) :=
  (hinv_runH evs hinit s' hinv_init h).1

/-- Witness for C3: two submissions whose pool results arrive in the
reverse order are still delivered in submission order, each with its
own digest. -/
theorem C3_witness :
    (HasherSt.mk [strBytes "a", strBytes "b"] []
      [(0, sha1hex (strBytes "a")), (1, sha1hex (strBytes "b"))]).out =
    (List.range (HasherSt.mk [strBytes "a", strBytes "b"] []
      [(0, sha1hex (strBytes "a")), (1, sha1hex (strBytes "b"))]).out.length).map
      (fun i => (i, sha1hex (getI (HasherSt.mk [strBytes "a", strBytes "b"] []
        [(0, sha1hex (strBytes "a")), (1, sha1hex (strBytes "b"))]).subs i))) :=
  C3_in_order_delivery
    [HEv.submit (strBytes "a"), HEv.submit (strBytes "b"), HEv.complete 1, HEv.complete 0]
    _ (by decide)
